import Mathlib

/-!
Verification of the vtable detection core (`src/vtable.rs`) of the `od`
binary-analysis tool.  The Rust function `find_vtables` is embedded shallowly:

* the candidate scanner (the `windows/enumerate/step_by/fold` pipeline over
  the `.rdata` bytes) becomes `scanFold` / `scanCandidates`;
* the instruction validator (the `while let Some(insn) = it.next()` loop with
  `peekable` lookahead) becomes `validateLoop` with its two idiom steps
  `stepA` (LEA rip-relative) and `stepB` (MOV mem, imm);
* the `BTreeMap<u64, Vec<u64>>` cross-reference index becomes an association
  list `Xrefs` with `Xrefs.find` / `Xrefs.push` mirroring the
  `entry`/`get_mut`/`push` sequence in the source;
* the `.unwrap()` on `it.peek()` is modelled by an `Option`: `none` marks the
  panic that `unwrap` raises when the iterator is exhausted.

Machine integers are `Nat`/`Int` with explicit `% 2^64` where the Rust code
wraps or reinterprets (`as i64`, `as u64`).
-/

namespace Od

/-- Two to the sixty-fourth, the modulus of `u64` arithmetic. -/
def U64MOD : Nat := 2 ^ 64

/-- Reinterpret a `u64` bit pattern as an `i64` value (Rust `as i64`). -/
def toI64 (n : Nat) : Int :=
  if n % U64MOD < 2 ^ 63 then (n % U64MOD : Int) else (n % U64MOD : Int) - (U64MOD : Int)

/-- Wrap an unbounded integer into the `i64` value range (two's complement). -/
def wrapI64 (x : Int) : Int :=
  (x + 2 ^ 63) % (U64MOD : Int) - 2 ^ 63

/-- Reinterpret an `i64` value as a `u64` (Rust `as u64`). -/
def toU64 (x : Int) : Nat :=
  (x % (U64MOD : Int)).toNat

/-- A named binary section: base address, declared size, raw bytes.
Mirrors what `object::Section` exposes (`address()`, `size()`, `data()`). -/
structure Section where
  address : Nat
  size : Nat
  data : List Nat
deriving DecidableEq, Repr

/-- The capstone register id of `RIP` (`x86::X86Reg::X86_REG_RIP`). -/
def X86_REG_RIP : Nat := 41

/-- Memory operand shape: base register id and signed displacement
(`x86::X86OpMem`; only `base` and `disp` are inspected by the source). -/
structure X86OpMem where
  base : Nat
  disp : Int
deriving DecidableEq, Repr

/-- Operand shapes inspected by the source (`x86::X86OperandType`). -/
inductive X86OperandType where
  | Reg (reg : Nat)
  | Mem (mem : X86OpMem)
  | Imm (imm : Int)
deriving DecidableEq, Repr

/-- Instruction mnemonics: the source compares against `X86_INS_LEA` and
`X86_INS_MOV`; every other mnemonic is kept abstract by its enum code. -/
inductive Mnemonic where
  | LEA
  | MOV
  | other (code : Nat)
deriving DecidableEq, Repr

/-- A decoded instruction as the validator consumes it
(`context.insns` elements): address, encoded byte length
(`insn.bytes.len()`), mnemonic, operand type list. -/
structure Instruction where
  address : Nat
  bytesLen : Nat
  mnemonic : Mnemonic
  operands : List X86OperandType
deriving DecidableEq, Repr

/-- The cross-reference index `BTreeMap<u64, Vec<u64>>` as an association
list from vtable address to the ordered list of referencing addresses. -/
abbrev Xrefs := List (Nat × List Nat)

/-- Map lookup (`xrefs.get(&k)`). -/
def Xrefs.find : Xrefs → Nat → Option (List Nat)
  | [], _ => none
  | (k, l) :: rest, k' => if k = k' then some l else Xrefs.find rest k'

/-- The source's insertion sequence: `if let Entry::Vacant(e) =
xrefs.entry(k) { e.insert(Vec::new()); } xrefs.get_mut(&k).unwrap().push(v)`.
Appends `v` to the list at key `k`, creating the entry when absent. -/
def Xrefs.push : Xrefs → Nat → Nat → Xrefs
  | [], k, v => [(k, [v])]
  | (k', l) :: rest, k, v =>
      if k' = k then (k', l ++ [v]) :: rest else (k', l) :: Xrefs.push rest k v

/-- The input context of `find_vtables` (`Context`): the two sections the
source looks up by name (absent = `None`), the pointer width
(`context.pointer_size`), the decoded instruction stream (`context.insns`)
and the caller-owned cross-reference index (`context.xrefs`). -/
structure Context where
  text : Option Section
  rdata : Option Section
  pointer_size : Nat
  insns : List Instruction
  xrefs : Xrefs

/-- Modelled from the spec: `convert_pointer` lives in `src/util.rs`, which is
not among the provided sources.  The spec says each pointer-width window is
decoded "as a native-endian unsigned integer"; the targets are 32/64-bit x86,
whose native endianness is little-endian. -/
def convert_pointer (bytes : List Nat) (w : Nat) : Nat :=
  (bytes.take w).foldr (fun b acc => acc * 256 + b % 256) 0

/-- `BTreeSet<u64>` is modelled as a strictly sorted list; `binsert` is
`BTreeSet::insert`: it keeps the list sorted and drops duplicates. -/
def binsert (a : Nat) : List Nat → List Nat
  | [] => [a]
  | b :: l => if a < b then a :: b :: l else if a = b then b :: l else b :: binsert a l

/-- The accumulator of the scanner's `fold`: `last` is the start address of
the currently open run, `all` the closed run starts collected so far. -/
structure ScanState where
  last : Option Nat
  all : List Nat
deriving DecidableEq, Repr

/-- One iteration of the scanner fold: decode the window at offset `i`,
test `text.address < ptr < text.address + text.size` (both strict), open /
continue / close the run exactly as the source does. -/
def scanStep (text : Section) (w : Nat) (rdataAddr : Nat)
    (s : ScanState) (i : Nat) (window : List Nat) : ScanState :=
  if text.address < convert_pointer window w ∧
      convert_pointer window w < text.address + text.size then
    match s.last with
    | none => { s with last := some (i + rdataAddr) }
    | some _ => s
  else
    match s.last with
    | some a => { last := none, all := binsert a s.all }
    | none => s

/-- Number of windows visited by `rdata.windows(w).enumerate().step_by(w)`:
offsets `0, w, 2w, …` while `offset + w ≤ len` (`windows(w)` yields
`len - w + 1` windows when `w ≤ len`, none otherwise; `step_by(w)` keeps
every `w`-th). -/
def numWindows (len w : Nat) : Nat :=
  if 0 < w ∧ w ≤ len then (len - w) / w + 1 else 0

/-- The visited windows, each paired with its byte offset into the data. -/
def scanWindows (data : List Nat) (w : Nat) : List (Nat × List Nat) :=
  (List.range (numWindows data.length w)).map
    (fun k => (k * w, (data.drop (k * w)).take w))

/-- The full scanner fold over the `.rdata` bytes (source lines 24–51). -/
def scanFold (rdata : Section) (w : Nat) (text : Section) : ScanState :=
  (scanWindows rdata.data w).foldl
    (fun s iw => scanStep text w rdata.address s iw.1 iw.2)
    { last := none, all := [] }

/-- The candidate set: the `.all` field of the final fold state — a still
open `last` run is dropped. -/
def scanCandidates (rdata : Section) (w : Nat) (text : Section) : List Nat :=
  (scanFold rdata w text).all

/-- `is_mov_from_reg_to_mem`: the next instruction must be a `MOV` whose
operands are exactly `[Mem _, Reg r]` with `r` identical to `reg`.
(The Rust function returns `Result<bool>` but never errs.) -/
def is_mov_from_reg_to_mem (insn : Instruction) (reg : Nat) : Bool :=
  if insn.mnemonic ≠ Mnemonic.MOV then false
  else
    match insn.operands with
    | [X86OperandType.Mem _, X86OperandType.Reg r] => r = reg
    | _ => false

/-- Idiom A effective address:
`(mem.disp() + insn.address as i64) as u64 + insn.bytes.len() as u64`,
every step in wrapping 64-bit arithmetic. -/
def effAddr (disp : Int) (addr : Nat) (len : Nat) : Nat :=
  (toU64 (wrapI64 (disp + toI64 addr)) + len) % U64MOD

/-- Idiom A (source lines 59–76): `lea reg, [rip + x]` followed by
`mov [mem], reg`.  The result is `none` exactly when the source panics:
the candidate test succeeded but `it.peek().unwrap()` found no next
instruction. -/
def stepA (cands : List Nat) (st : List Nat × Xrefs)
    (insn : Instruction) (peek : Option Instruction) :
    Option (List Nat × Xrefs) :=
  if insn.mnemonic = Mnemonic.LEA then
    match insn.operands with
    | [X86OperandType.Reg reg, X86OperandType.Mem mem] =>
      if mem.base = X86_REG_RIP then
        if effAddr mem.disp insn.address insn.bytesLen ∈ cands then
          match peek with
          | none => none
          | some next =>
            if is_mov_from_reg_to_mem next reg then
              some (binsert (effAddr mem.disp insn.address insn.bytesLen) st.1,
                Xrefs.push st.2 (effAddr mem.disp insn.address insn.bytesLen) insn.address)
            else some st
        else some st
      else some st
    | _ => some st
  else some st

/-- Idiom B (source lines 79–95): `mov [mem], imm`; the immediate
reinterpreted as `u64` is looked up in the candidate set directly. -/
def stepB (cands : List Nat) (st : List Nat × Xrefs)
    (insn : Instruction) : List Nat × Xrefs :=
  if insn.mnemonic = Mnemonic.MOV then
    match insn.operands with
    | [X86OperandType.Mem _, X86OperandType.Imm imm] =>
      if toU64 imm ∈ cands then
        (binsert (toU64 imm) st.1, Xrefs.push st.2 (toU64 imm) insn.address)
      else st
    | _ => st
  else st

/-- The validator loop (`while let Some(insn) = it.next()`), with one-token
lookahead `rest.head?` standing for `it.peek()`.  Returns the confirmed
vtable set (`none` when the loop panics) together with the cross-reference
index at that point. -/
def validateLoop (cands : List Nat) :
    List Nat × Xrefs → List Instruction → Option (List Nat) × Xrefs
  | st, [] => (some st.1, st.2)
  | st, insn :: rest =>
    match stepA cands st insn rest.head? with
    | none => (none, st.2)
    | some st' => validateLoop cands (stepB cands st' insn) rest

/-- How one call to `find_vtables` can fail to return `Ok`: a missing
`.text` section, a missing `.rdata` section (both `anyhow` errors), or the
`unwrap` panic inside the validator loop. -/
inductive FvError where
  | noText
  | noRdata
  | panicked
deriving DecidableEq, Repr

instance {ε α : Type} [DecidableEq ε] [DecidableEq α] : DecidableEq (Except ε α) := fun x y =>
  match x, y with
  | Except.ok a, Except.ok b =>
    if h : a = b then isTrue (by rw [h]) else isFalse (fun hc => h (Except.ok.inj hc))
  | Except.error a, Except.error b =>
    if h : a = b then isTrue (by rw [h]) else isFalse (fun hc => h (Except.error.inj hc))
  | Except.ok _, Except.error _ => isFalse (fun hc => Except.noConfusion hc)
  | Except.error _, Except.ok _ => isFalse (fun hc => Except.noConfusion hc)

/-- `find_vtables` (source lines 12–98): precondition checks, candidate
scan, validation pass, sorted output.  The second component is the state of
the caller's cross-reference index when the call ends (unchanged on a
missing-section error; as mutated so far when the loop panics). -/
def find_vtables (ctx : Context) : Except FvError (List Nat) × Xrefs :=
  match ctx.text with
  | none => (Except.error FvError.noText, ctx.xrefs)
  | some text =>
    match ctx.rdata with
    | none => (Except.error FvError.noRdata, ctx.xrefs)
    | some rdata =>
      let cands := scanCandidates rdata ctx.pointer_size text
      match validateLoop cands ([], ctx.xrefs) ctx.insns with
      | (none, xr) => (Except.error FvError.panicked, xr)
      | (some vt, xr) => (Except.ok vt, xr)

/-! ### Concrete fixtures

Small hand-made binaries used to evaluate the embedding on closed inputs. -/

/-- A code section spanning `[0x1000, 0x1100)`. -/
def textS : Section := ⟨0x1000, 0x100, []⟩

/-- `.rdata` for pointer width 4: one in-range word `0x1010` at `0x2000`
followed by an out-of-range zero word, so the candidate set is `[0x2000]`. -/
def rdataRun : Section := ⟨0x2000, 8, [0x10, 0x10, 0, 0, 0, 0, 0, 0]⟩

/-- `.rdata` for pointer width 8 based above `2^32`: one in-range qword then
a zero qword, so the candidate set is `[0x100000000]`. -/
def rdataHigh : Section :=
  ⟨0x100000000, 16, [0x10, 0x10, 0, 0, 0, 0, 0, 0, 0, 0, 0, 0, 0, 0, 0, 0]⟩

/-- `.rdata` for pointer width 4 that is a single in-range word: the run
opens at `0x2000` and is still open when the data ends. -/
def rdataOpen : Section := ⟨0x2000, 4, [0x10, 0x10, 0, 0]⟩

/-- `.rdata` with fewer bytes than one pointer width. -/
def rdataTiny : Section := ⟨0x2000, 3, [1, 2, 3]⟩

/-- The rip-relative memory operand of `leaInsn`. -/
def leaMem : X86OpMem := ⟨X86_REG_RIP, 0xFF9⟩

/-- `lea reg1, [rip + 0xFF9]` at `0x1000`, 7 bytes: effective address
`0xFF9 + 0x1000 + 7 = 0x2000`. -/
def leaInsn : Instruction :=
  ⟨0x1000, 7, Mnemonic.LEA, [X86OperandType.Reg 1, X86OperandType.Mem leaMem]⟩

/-- `mov [reg5], reg1` at `0x1007`: the store completing idiom A. -/
def movStoreReg : Instruction :=
  ⟨0x1007, 3, Mnemonic.MOV, [X86OperandType.Mem ⟨5, 0⟩, X86OperandType.Reg 1]⟩

/-- `mov [reg3], 0x100000000` at `0x5000`: an immediate outside the signed
32-bit range. -/
def movImmHigh : Instruction :=
  ⟨0x5000, 10, Mnemonic.MOV, [X86OperandType.Mem ⟨3, 0⟩, X86OperandType.Imm 0x100000000]⟩

/-- A stream ending in a candidate-hitting LEA with no next instruction. -/
def ctxPanic : Context := ⟨some textS, some rdataRun, 4, [leaInsn], []⟩

/-- A 64-bit context whose only instruction stores a > 32-bit immediate. -/
def ctxBigImm : Context := ⟨some textS, some rdataHigh, 8, [movImmHigh], []⟩

/-- A context with no `.text` section and a pre-populated xref index. -/
def ctxNoText : Context := ⟨none, some rdataRun, 4, [], [(5, [7])]⟩

/-- A well-formed context where idiom A matches once. -/
def ctxOk : Context := ⟨some textS, some rdataRun, 4, [leaInsn, movStoreReg], []⟩

/-- A context whose `.rdata` is shorter than the pointer width. -/
def ctxTiny : Context := ⟨some textS, some rdataTiny, 4, [leaInsn, movStoreReg], [(5, [7])]⟩

/-! ### Helper lemmas -/

lemma mem_binsert (x a : Nat) (l : List Nat) : x ∈ binsert a l ↔ x = a ∨ x ∈ l := by
  induction l with
  | nil => simp [binsert]
  | cons b l ih =>
    simp only [binsert]
    split
    · simp only [List.mem_cons]; try tauto
    · split
      · next heq => subst heq; simp only [List.mem_cons]; try tauto
      · simp only [List.mem_cons, ih]; try tauto

lemma sorted_binsert (a : Nat) (l : List Nat) (h : List.Sorted (· < ·) l) :
    List.Sorted (· < ·) (binsert a l) := by
  induction l with
  | nil => simp [binsert]
  | cons b l ih =>
    rw [List.sorted_cons] at h
    simp only [binsert]
    split
    · next hlt =>
      rw [List.sorted_cons]
      refine ⟨?_, List.sorted_cons.2 h⟩
      intro x hx
      rcases List.mem_cons.1 hx with rfl | hx
      · exact hlt
      · exact lt_trans hlt (h.1 x hx)
    · split
      · exact List.sorted_cons.2 h
      · next hnlt hne =>
        have hba : b < a := by omega
        rw [List.sorted_cons]
        refine ⟨?_, ih h.2⟩
        intro x hx
        rcases (mem_binsert x a l).1 hx with rfl | hx
        · exact hba
        · exact h.1 x hx

lemma find_push_self (x : Xrefs) (k v : Nat) :
    Xrefs.find (Xrefs.push x k v) k = some ((Xrefs.find x k).getD [] ++ [v]) := by
  induction x with
  | nil => simp [Xrefs.push, Xrefs.find]
  | cons p rest ih =>
    obtain ⟨k', l⟩ := p
    simp only [Xrefs.push, Xrefs.find]
    split
    · next h => subst h; simp [Xrefs.find]
    · next h => simp [Xrefs.find, h, ih]

lemma find_push_ne (x : Xrefs) (k v k' : Nat) (h : k ≠ k') :
    Xrefs.find (Xrefs.push x k v) k' = Xrefs.find x k' := by
  induction x with
  | nil => simp [Xrefs.push, Xrefs.find, h]
  | cons p rest ih =>
    obtain ⟨k'', l⟩ := p
    simp only [Xrefs.push, Xrefs.find]
    split
    · next h2 => subst h2; simp [Xrefs.find, h]
    · next h2 => simp only [Xrefs.find]; split <;> simp [ih]

/-- `stepA` never errs when the mnemonic is not `LEA`. -/
lemma stepA_not_lea (cands : List Nat) (st : List Nat × Xrefs) (insn : Instruction)
    (peek : Option Instruction) (h : insn.mnemonic ≠ Mnemonic.LEA) :
    stepA cands st insn peek = some st := by
  simp [stepA, h]

/-- `stepB` is the identity when the mnemonic is not `MOV`. -/
lemma stepB_not_mov (cands : List Nat) (st : List Nat × Xrefs) (insn : Instruction)
    (h : insn.mnemonic ≠ Mnemonic.MOV) :
    stepB cands st insn = st := by
  simp [stepB, h]

/-- Every successful `stepA` outcome is the input state or a single
insert-plus-push at a candidate address, recording the current address. -/
lemma stepA_result (cands : List Nat) (st : List Nat × Xrefs) (insn : Instruction)
    (peek : Option Instruction) (st' : List Nat × Xrefs)
    (h : stepA cands st insn peek = some st') :
    st' = st ∨ ∃ k, k ∈ cands ∧ st' = (binsert k st.1, Xrefs.push st.2 k insn.address) := by
  unfold stepA at h
  repeat' split at h
  all_goals try exact Option.noConfusion h
  all_goals try exact Or.inl (Option.some.inj h).symm
  all_goals exact Or.inr ⟨_, by assumption, (Option.some.inj h).symm⟩

/-- Every `stepB` outcome is the input state or a single insert-plus-push at
a candidate address, recording the current address. -/
lemma stepB_result (cands : List Nat) (st : List Nat × Xrefs) (insn : Instruction) :
    stepB cands st insn = st ∨
      ∃ k, k ∈ cands ∧ stepB cands st insn = (binsert k st.1, Xrefs.push st.2 k insn.address) := by
  unfold stepB
  repeat' split
  all_goals try exact Or.inl rfl
  all_goals exact Or.inr ⟨_, by assumption, rfl⟩

/-- With an empty candidate set `stepA` can neither match nor panic. -/
lemma stepA_cands_nil (st : List Nat × Xrefs) (insn : Instruction)
    (peek : Option Instruction) : stepA [] st insn peek = some st := by
  unfold stepA
  repeat' split
  all_goals try rfl
  all_goals exact absurd (by assumption) (List.not_mem_nil _)

/-- With an empty candidate set `stepB` is the identity. -/
lemma stepB_cands_nil (st : List Nat × Xrefs) (insn : Instruction) :
    stepB [] st insn = st := by
  unfold stepB
  repeat' split
  all_goals try rfl
  all_goals exact absurd (by assumption) (List.not_mem_nil _)

/-- With an empty candidate set the whole validation pass is a no-op. -/
lemma validateLoop_cands_nil :
    ∀ (insns : List Instruction) (st : List Nat × Xrefs),
      validateLoop [] st insns = (some st.1, st.2)
  | [], st => rfl
  | insn :: rest, st => by
    show (match stepA [] st insn rest.head? with
      | none => (none, st.2)
      | some st' => validateLoop [] (stepB [] st' insn) rest) = (some st.1, st.2)
    rw [stepA_cands_nil]
    show validateLoop [] (stepB [] st insn) rest = (some st.1, st.2)
    rw [stepB_cands_nil]
    exact validateLoop_cands_nil rest st

/-- A data section shorter than the pointer width yields no window, hence no
candidate. -/
lemma scanCandidates_short (rdata text : Section) (w : Nat)
    (h : rdata.data.length < w) : scanCandidates rdata w text = [] := by
  have hnw : numWindows rdata.data.length w = 0 := by
    unfold numWindows
    rw [if_neg (show ¬(0 < w ∧ w ≤ rdata.data.length) by omega)]
  unfold scanCandidates scanFold scanWindows
  rw [hnw]
  rfl

/-- Elements of a successful `stepA` state come from the old state or the
candidate set. -/
lemma stepA_mem (cands : List Nat) (st st' : List Nat × Xrefs) (insn : Instruction)
    (peek : Option Instruction) (h : stepA cands st insn peek = some st') :
    ∀ v ∈ st'.1, v ∈ st.1 ∨ v ∈ cands := by
  intro v hv
  rcases stepA_result cands st insn peek st' h with rfl | ⟨k, hk, rfl⟩
  · exact Or.inl hv
  · rcases (mem_binsert v k st.1).1 hv with rfl | hv
    · exact Or.inr hk
    · exact Or.inl hv

/-- Elements of a `stepB` state come from the old state or the candidate set. -/
lemma stepB_mem (cands : List Nat) (st : List Nat × Xrefs) (insn : Instruction) :
    ∀ v ∈ (stepB cands st insn).1, v ∈ st.1 ∨ v ∈ cands := by
  intro v hv
  rcases stepB_result cands st insn with heq | ⟨k, hk, heq⟩
  · rw [heq] at hv; exact Or.inl hv
  · rw [heq] at hv
    rcases (mem_binsert v k st.1).1 hv with rfl | hv
    · exact Or.inr hk
    · exact Or.inl hv

/-- `stepA` keeps the vtable list strictly sorted. -/
lemma stepA_sorted (cands : List Nat) (st st' : List Nat × Xrefs) (insn : Instruction)
    (peek : Option Instruction) (h : stepA cands st insn peek = some st')
    (hs : List.Sorted (· < ·) st.1) : List.Sorted (· < ·) st'.1 := by
  rcases stepA_result cands st insn peek st' h with rfl | ⟨k, _, rfl⟩
  · exact hs
  · exact sorted_binsert k st.1 hs

/-- `stepB` keeps the vtable list strictly sorted. -/
lemma stepB_sorted (cands : List Nat) (st : List Nat × Xrefs) (insn : Instruction)
    (hs : List.Sorted (· < ·) st.1) : List.Sorted (· < ·) (stepB cands st insn).1 := by
  rcases stepB_result cands st insn with heq | ⟨k, _, heq⟩
  · rw [heq]; exact hs
  · rw [heq]; exact sorted_binsert k st.1 hs

/-- Loop invariant: every confirmed vtable was already confirmed or is a
candidate. -/
lemma validateLoop_subset (cands : List Nat) :
    ∀ (insns : List Instruction) (st : List Nat × Xrefs) (vt : List Nat) (xr : Xrefs),
      validateLoop cands st insns = (some vt, xr) → ∀ v ∈ vt, v ∈ st.1 ∨ v ∈ cands
  | [], st, vt, xr => by
    intro h v hv
    obtain ⟨h1, _⟩ := Prod.mk.injEq .. ▸ h
    cases Option.some.inj h1
    exact Or.inl hv
  | insn :: rest, st, vt, xr => by
    intro h v hv
    rw [show validateLoop cands st (insn :: rest) = (match stepA cands st insn rest.head? with
      | none => (none, st.2)
      | some st' => validateLoop cands (stepB cands st' insn) rest) from rfl] at h
    cases hA : stepA cands st insn rest.head? with
    | none => rw [hA] at h; exact absurd (congrArg Prod.fst h) (by simp)
    | some st' =>
      rw [hA] at h
      rcases validateLoop_subset cands rest (stepB cands st' insn) vt xr h v hv with hin | hin
      · rcases stepB_mem cands st' insn v hin with hin' | hin'
        · exact stepA_mem cands st st' insn rest.head? hA v hin'
        · exact Or.inr hin'
      · exact Or.inr hin

/-- Loop invariant: the vtable list stays strictly sorted. -/
lemma validateLoop_sorted (cands : List Nat) :
    ∀ (insns : List Instruction) (st : List Nat × Xrefs),
      List.Sorted (· < ·) st.1 →
      ∀ (vt : List Nat) (xr : Xrefs),
        validateLoop cands st insns = (some vt, xr) → List.Sorted (· < ·) vt
  | [], st => by
    intro hs vt xr h
    obtain ⟨h1, _⟩ := Prod.mk.injEq .. ▸ h
    cases Option.some.inj h1
    exact hs
  | insn :: rest, st => by
    intro hs vt xr h
    rw [show validateLoop cands st (insn :: rest) = (match stepA cands st insn rest.head? with
      | none => (none, st.2)
      | some st' => validateLoop cands (stepB cands st' insn) rest) from rfl] at h
    cases hA : stepA cands st insn rest.head? with
    | none => rw [hA] at h; exact absurd (congrArg Prod.fst h) (by simp)
    | some st' =>
      rw [hA] at h
      exact validateLoop_sorted cands rest (stepB cands st' insn)
        (stepB_sorted cands st' insn (stepA_sorted cands st st' insn rest.head? hA hs)) vt xr h

/-- `y` extends `x` within `addrs`: every list stored in `x` persists in `y`
with only a suffix appended, and that suffix is drawn, in order, from
`addrs`. -/
def XrefsExtends (x y : Xrefs) (addrs : List Nat) : Prop :=
  ∀ k l, Xrefs.find x k = some l →
    ∃ l', Xrefs.find y k = some (l ++ l') ∧ List.Sublist l' addrs

lemma xrefsExtends_refl (x : Xrefs) (addrs : List Nat) : XrefsExtends x x addrs :=
  fun _ l h => ⟨[], by simpa using h, List.nil_sublist _⟩

lemma xrefsExtends_push (x : Xrefs) (k0 v : Nat) :
    XrefsExtends x (Xrefs.push x k0 v) [v] := by
  intro k l h
  by_cases hk : k0 = k
  · subst hk
    refine ⟨[v], ?_, List.Sublist.refl _⟩
    rw [find_push_self, h]
    rfl
  · exact ⟨[], by simpa using (find_push_ne x k0 v k hk).trans h, List.nil_sublist _⟩

lemma xrefsExtends_trans (x y z : Xrefs) (as1 as2 : List Nat)
    (h1 : XrefsExtends x y as1) (h2 : XrefsExtends y z as2) :
    XrefsExtends x z (as1 ++ as2) := by
  intro k l h
  obtain ⟨l1, hy, hs1⟩ := h1 k l h
  obtain ⟨l2, hz, hs2⟩ := h2 k (l ++ l1) hy
  exact ⟨l1 ++ l2, by rwa [List.append_assoc] at hz, List.Sublist.append hs1 hs2⟩

lemma xrefsExtends_mono (x y : Xrefs) (as1 as2 : List Nat)
    (h : XrefsExtends x y as1) (hs : List.Sublist as1 as2) :
    XrefsExtends x y as2 :=
  fun k l hf => (h k l hf).imp fun _ ⟨ha, hb⟩ => ⟨ha, hb.trans hs⟩

/-- A successful `stepA` only ever appends the current instruction's
address to the index. -/
lemma stepA_extends (cands : List Nat) (st st' : List Nat × Xrefs) (insn : Instruction)
    (peek : Option Instruction) (h : stepA cands st insn peek = some st') :
    XrefsExtends st.2 st'.2 [insn.address] := by
  rcases stepA_result cands st insn peek st' h with rfl | ⟨k, _, rfl⟩
  · exact xrefsExtends_refl _ _
  · exact xrefsExtends_push st.2 k insn.address

/-- `stepB` only ever appends the current instruction's address. -/
lemma stepB_extends (cands : List Nat) (st : List Nat × Xrefs) (insn : Instruction) :
    XrefsExtends st.2 (stepB cands st insn).2 [insn.address] := by
  rcases stepB_result cands st insn with heq | ⟨k, _, heq⟩
  · rw [heq]; exact xrefsExtends_refl _ _
  · rw [heq]; exact xrefsExtends_push st.2 k insn.address

/-- One validator iteration appends at most the current address: the two
idiom tests are mutually exclusive on the mnemonic. -/
lemma step_both_extends (cands : List Nat) (st st' : List Nat × Xrefs)
    (insn : Instruction) (peek : Option Instruction)
    (h : stepA cands st insn peek = some st') :
    XrefsExtends st.2 (stepB cands st' insn).2 [insn.address] := by
  by_cases hm : insn.mnemonic = Mnemonic.LEA
  · rw [stepB_not_mov cands st' insn (by rw [hm]; intro hc; cases hc)]
    exact stepA_extends cands st st' insn peek h
  · rw [stepA_not_lea cands st insn peek hm] at h
    obtain rfl : st = st' := Option.some.inj h
    exact stepB_extends cands st insn

/-- Loop invariant: the whole validation pass only appends, and appended
addresses occur in stream order. -/
lemma validateLoop_extends (cands : List Nat) :
    ∀ (insns : List Instruction) (st : List Nat × Xrefs),
      XrefsExtends st.2 (validateLoop cands st insns).2
        (insns.map (fun i => i.address))
  | [], st => xrefsExtends_refl _ _
  | insn :: rest, st => by
    rw [show validateLoop cands st (insn :: rest) = (match stepA cands st insn rest.head? with
      | none => (none, st.2)
      | some st' => validateLoop cands (stepB cands st' insn) rest) from rfl]
    cases hA : stepA cands st insn rest.head? with
    | none =>
      exact xrefsExtends_mono _ _ _ _ (xrefsExtends_refl st.2 []) (List.nil_sublist _)
    | some st' =>
      have h1 := step_both_extends cands st st' insn rest.head? hA
      have h2 := validateLoop_extends cands rest (stepB cands st' insn)
      exact xrefsExtends_trans _ _ _ _ _ h1 h2

/-- The two-sided keys invariant of one loop state: an index entry exists
exactly for the confirmed vtables, and every entry is non-empty. -/
def KeysMatch (st : List Nat × Xrefs) : Prop :=
  (∀ k, (Xrefs.find st.2 k).isSome ↔ k ∈ st.1) ∧
    (∀ k l, Xrefs.find st.2 k = some l → l ≠ [])

/-- The combined insert-plus-push update preserves the keys invariant. -/
lemma keysMatch_push (st : List Nat × Xrefs) (k0 v : Nat) (h : KeysMatch st) :
    KeysMatch (binsert k0 st.1, Xrefs.push st.2 k0 v) := by
  obtain ⟨h1, h2⟩ := h
  constructor
  · intro k
    by_cases hk : k0 = k
    · subst hk
      rw [find_push_self]
      simp [mem_binsert]
    · rw [find_push_ne st.2 k0 v k hk, mem_binsert]
      rw [h1 k]
      constructor
      · exact Or.inr
      · rintro (rfl | hm)
        · exact absurd rfl hk
        · exact hm
  · intro k l hf
    by_cases hk : k0 = k
    · subst hk
      rw [find_push_self] at hf
      cases Option.some.inj hf
      simp
    · exact h2 k l ((find_push_ne st.2 k0 v k hk) ▸ hf)

lemma stepA_keysMatch (cands : List Nat) (st st' : List Nat × Xrefs) (insn : Instruction)
    (peek : Option Instruction) (h : stepA cands st insn peek = some st')
    (hk : KeysMatch st) : KeysMatch st' := by
  rcases stepA_result cands st insn peek st' h with rfl | ⟨k, _, rfl⟩
  · exact hk
  · exact keysMatch_push st k insn.address hk

lemma stepB_keysMatch (cands : List Nat) (st : List Nat × Xrefs) (insn : Instruction)
    (hk : KeysMatch st) : KeysMatch (stepB cands st insn) := by
  rcases stepB_result cands st insn with heq | ⟨k, _, heq⟩
  · rw [heq]; exact hk
  · rw [heq]; exact keysMatch_push st k insn.address hk

/-- Loop invariant: the keys invariant is preserved to the final state. -/
lemma validateLoop_keysMatch (cands : List Nat) :
    ∀ (insns : List Instruction) (st : List Nat × Xrefs),
      KeysMatch st →
      ∀ (vt : List Nat) (xr : Xrefs),
        validateLoop cands st insns = (some vt, xr) → KeysMatch (vt, xr)
  | [], st => by
    intro hk vt xr h
    obtain ⟨h1, h2⟩ := Prod.mk.injEq .. ▸ h
    cases Option.some.inj h1
    cases h2
    exact hk
  | insn :: rest, st => by
    intro hk vt xr h
    rw [show validateLoop cands st (insn :: rest) = (match stepA cands st insn rest.head? with
      | none => (none, st.2)
      | some st' => validateLoop cands (stepB cands st' insn) rest) from rfl] at h
    cases hA : stepA cands st insn rest.head? with
    | none => rw [hA] at h; exact absurd (congrArg Prod.fst h) (by simp)
    | some st' =>
      rw [hA] at h
      exact validateLoop_keysMatch cands rest (stepB cands st' insn)
        (stepB_keysMatch cands st' insn (stepA_keysMatch cands st st' insn rest.head? hA hk))
        vt xr h

/-- With both sections present, `find_vtables` is the validation pass over
the scanned candidates. -/
lemma find_vtables_sections (ctx : Context) (text rdata : Section)
    (ht : ctx.text = some text) (hr : ctx.rdata = some rdata) :
    find_vtables ctx =
      (match validateLoop (scanCandidates rdata ctx.pointer_size text)
          ([], ctx.xrefs) ctx.insns with
        | (none, xr) => (Except.error FvError.panicked, xr)
        | (some vt, xr) => (Except.ok vt, xr)) := by
  unfold find_vtables
  rw [ht, hr]

/-! ### Claim theorems -/

/-- C3: if the `.text` or `.rdata` section is absent, `find_vtables` returns
an error and the caller's cross-reference index is left unchanged — no
candidate scan or validation output escapes. -/
theorem C3_missing_section_atomic (ctx : Context)
    (h : ctx.text = none ∨ ctx.rdata = none) :
    (∃ e, (find_vtables ctx).1 = Except.error e) ∧ (find_vtables ctx).2 = ctx.xrefs := by
  rcases h with h | h
  · refine ⟨⟨FvError.noText, ?_⟩, ?_⟩ <;> simp [find_vtables, h]
  · cases htext : ctx.text with
    | none => refine ⟨⟨FvError.noText, ?_⟩, ?_⟩ <;> simp [find_vtables, htext]
    | some t => refine ⟨⟨FvError.noRdata, ?_⟩, ?_⟩ <;> simp [find_vtables, htext, h]

theorem C3_missing_section_atomic_witness :
    (ctxNoText.text = none ∨ ctxNoText.rdata = none) ∧
      ((∃ e, (find_vtables ctxNoText).1 = Except.error e) ∧
        (find_vtables ctxNoText).2 = ctxNoText.xrefs) :=
  ⟨Or.inl rfl, C3_missing_section_atomic ctxNoText (Or.inl rfl)⟩

/-- C10: a read-only-data section shorter than the pointer width produces an
empty candidate set, so `find_vtables` returns `Ok` with an empty vtable
list and leaves the cross-reference index unchanged, whatever the
instruction stream holds. -/
theorem C10_short_rdata_ok (ctx : Context) (text rdata : Section)
    (ht : ctx.text = some text) (hr : ctx.rdata = some rdata)
    (hlen : rdata.data.length < ctx.pointer_size) :
    find_vtables ctx = (Except.ok [], ctx.xrefs) := by
  rw [find_vtables_sections ctx text rdata ht hr,
    scanCandidates_short rdata text ctx.pointer_size hlen,
    validateLoop_cands_nil ctx.insns ([], ctx.xrefs)]

theorem C10_short_rdata_ok_witness :
    ctxTiny.text = some textS ∧ ctxTiny.rdata = some rdataTiny ∧
      rdataTiny.data.length < ctxTiny.pointer_size ∧
      find_vtables ctxTiny = (Except.ok [], ctxTiny.xrefs) :=
  ⟨rfl, rfl, by decide, C10_short_rdata_ok ctxTiny textS rdataTiny rfl rfl (by decide)⟩

/-- C9: one call to `find_vtables` only appends to the cross-reference
index: every pre-existing entry survives with its old list as a prefix, and
the appended suffix follows the instruction stream's encounter order. -/
theorem C9_xrefs_append_only (ctx : Context) (k : Nat) (l : List Nat)
    (h : Xrefs.find ctx.xrefs k = some l) :
    ∃ l', Xrefs.find (find_vtables ctx).2 k = some (l ++ l') ∧
      List.Sublist l' (ctx.insns.map (fun i => i.address)) := by
  cases htext : ctx.text with
  | none =>
    refine ⟨[], ?_, List.nil_sublist _⟩
    simp only [find_vtables, htext]
    simpa using h
  | some text =>
    cases hrd : ctx.rdata with
    | none =>
      refine ⟨[], ?_, List.nil_sublist _⟩
      simp only [find_vtables, htext, hrd]
      simpa using h
    | some rdata =>
      obtain ⟨l', hfind, hsub⟩ :=
        validateLoop_extends (scanCandidates rdata ctx.pointer_size text)
          ctx.insns ([], ctx.xrefs) k l h
      refine ⟨l', ?_, hsub⟩
      rw [find_vtables_sections ctx text rdata htext hrd]
      cases hv : validateLoop (scanCandidates rdata ctx.pointer_size text)
          ([], ctx.xrefs) ctx.insns with
      | mk o xr =>
        rw [hv] at hfind
        cases o <;> exact hfind

theorem C9_xrefs_append_only_witness :
    Xrefs.find ctxNoText.xrefs 5 = some [7] ∧
      ∃ l', Xrefs.find (find_vtables ctxNoText).2 5 = some ([7] ++ l') ∧
        List.Sublist l' (ctxNoText.insns.map (fun i => i.address)) :=
  ⟨by decide, C9_xrefs_append_only ctxNoText 5 [7] (by decide)⟩

/-- C4: on success the returned vtable list is a subset of the candidate
set, strictly ascending, and duplicate-free. -/
theorem C4_output_sorted_subset (ctx : Context) (text rdata : Section)
    (vts : List Nat) (xr : Xrefs)
    (ht : ctx.text = some text) (hr : ctx.rdata = some rdata)
    (hok : find_vtables ctx = (Except.ok vts, xr)) :
    (∀ v ∈ vts, v ∈ scanCandidates rdata ctx.pointer_size text) ∧
      List.Sorted (· < ·) vts ∧ vts.Nodup := by
  rw [find_vtables_sections ctx text rdata ht hr] at hok
  cases hv : validateLoop (scanCandidates rdata ctx.pointer_size text)
      ([], ctx.xrefs) ctx.insns with
  | mk o xr' =>
    rw [hv] at hok
    cases o with
    | none => exact absurd (congrArg Prod.fst hok) (by simp)
    | some vt =>
      injection hok with h1 h2
      injection h1 with h1
      rw [h1, h2] at hv
      have hsorted := validateLoop_sorted (scanCandidates rdata ctx.pointer_size text)
        ctx.insns ([], ctx.xrefs) List.sorted_nil vts xr hv
      refine ⟨?_, hsorted, hsorted.nodup⟩
      intro v hvv
      rcases validateLoop_subset (scanCandidates rdata ctx.pointer_size text)
          ctx.insns ([], ctx.xrefs) vts xr hv v hvv with hin | hin
      · exact absurd hin (List.not_mem_nil v)
      · exact hin

theorem C4_output_sorted_subset_witness :
    ctxOk.text = some textS ∧ ctxOk.rdata = some rdataRun ∧
      find_vtables ctxOk = (Except.ok [0x2000], [(0x2000, [0x1000])]) ∧
      ((∀ v ∈ [0x2000], v ∈ scanCandidates rdataRun ctxOk.pointer_size textS) ∧
        List.Sorted (· < ·) [0x2000] ∧ List.Nodup [0x2000]) :=
  ⟨rfl, rfl, by decide,
    C4_output_sorted_subset ctxOk textS rdataRun [0x2000] [(0x2000, [0x1000])]
      rfl rfl (by decide)⟩

/-- C5: after a successful call on an initially empty index, an entry exists
for `v` iff `v` is in the returned vtable list, and every entry's list is
non-empty. -/
theorem C5_xref_keys_iff (ctx : Context) (vts : List Nat) (xr : Xrefs)
    (hempty : ctx.xrefs = []) (hok : find_vtables ctx = (Except.ok vts, xr)) :
    (∀ v, (Xrefs.find xr v).isSome ↔ v ∈ vts) ∧
      (∀ v l, Xrefs.find xr v = some l → l ≠ []) := by
  cases htext : ctx.text with
  | none =>
    rw [show find_vtables ctx = (Except.error FvError.noText, ctx.xrefs) from by
      unfold find_vtables; rw [htext]] at hok
    exact absurd (congrArg Prod.fst hok) (by simp)
  | some text =>
    cases hrd : ctx.rdata with
    | none =>
      rw [show find_vtables ctx = (Except.error FvError.noRdata, ctx.xrefs) from by
        unfold find_vtables; rw [htext, hrd]] at hok
      exact absurd (congrArg Prod.fst hok) (by simp)
    | some rdata =>
      rw [find_vtables_sections ctx text rdata htext hrd] at hok
      cases hv : validateLoop (scanCandidates rdata ctx.pointer_size text)
          ([], ctx.xrefs) ctx.insns with
      | mk o xr' =>
        rw [hv] at hok
        cases o with
        | none => exact absurd (congrArg Prod.fst hok) (by simp)
        | some vt =>
          injection hok with h1 h2
          injection h1 with h1
          rw [h1, h2] at hv
          have hkm : KeysMatch ([], ctx.xrefs) := by
            rw [hempty]
            exact ⟨fun k => by simp [Xrefs.find], fun k l hf => by simp [Xrefs.find] at hf⟩
          exact validateLoop_keysMatch (scanCandidates rdata ctx.pointer_size text)
            ctx.insns ([], ctx.xrefs) hkm vts xr hv

theorem C5_xref_keys_iff_witness :
    ctxOk.xrefs = [] ∧
      find_vtables ctxOk = (Except.ok [0x2000], [(0x2000, [0x1000])]) ∧
      ((∀ v, (Xrefs.find [(0x2000, [0x1000])] v).isSome ↔ v ∈ [0x2000]) ∧
        (∀ v l, Xrefs.find [(0x2000, [0x1000])] v = some l → l ≠ [])) :=
  ⟨rfl, by decide,
    C5_xref_keys_iff ctxOk [0x2000] [(0x2000, [0x1000])] rfl (by decide)⟩

/-- The chained wrapping casts of the effective-address computation reduce
to one sum modulo `2^64`. -/
lemma effAddr_eq (disp : Int) (addr len : Nat) :
    effAddr disp addr len = ((disp + addr + len) % ((U64MOD : Nat) : Int)).toNat := by
  unfold effAddr toU64 wrapI64 toI64 U64MOD
  by_cases h : addr % 2 ^ 64 < 2 ^ 63
  · rw [if_pos h]
    push_cast
    omega
  · rw [if_neg h]
    push_cast
    omega

/-- Exact shape of the idiom-A lookahead test. -/
lemma is_mov_iff (next : Instruction) (r : Nat) :
    is_mov_from_reg_to_mem next r = true ↔
      next.mnemonic = Mnemonic.MOV ∧
        ∃ m, next.operands = [X86OperandType.Mem m, X86OperandType.Reg r] := by
  unfold is_mov_from_reg_to_mem
  split
  · next hne =>
    constructor
    · intro hf; exact Bool.noConfusion hf
    · rintro ⟨hm, _⟩; exact absurd hm hne
  · next hmov =>
    have hm : next.mnemonic = Mnemonic.MOV := not_not.1 hmov
    split
    · next m r' heq =>
      simp only [decide_eq_true_eq]
      constructor
      · rintro rfl; exact ⟨hm, m, heq⟩
      · rintro ⟨_, m', heq'⟩
        rw [heq] at heq'
        simp only [List.cons.injEq, X86OperandType.Reg.injEq, X86OperandType.Mem.injEq,
          and_true] at heq'
        exact heq'.2
    · next hno =>
      constructor
      · intro hf; exact Bool.noConfusion hf
      · rintro ⟨_, m', heq'⟩
        exact absurd heq' (by intro hc; exact hno m' r hc)

/-- C6: for an idiom-A shaped instruction the looked-up address is
`disp + address + length` (in u64 arithmetic), a match requires the next
instruction to be a `MOV` storing the identical register to memory, and on
a match the current instruction's address is the one recorded. -/
theorem C6_idiomA_characterization (cands vt : List Nat) (xr : Xrefs)
    (insn next : Instruction) (r : Nat) (mem : X86OpMem)
    (h1 : insn.mnemonic = Mnemonic.LEA)
    (h2 : insn.operands = [X86OperandType.Reg r, X86OperandType.Mem mem])
    (h3 : mem.base = X86_REG_RIP) :
    effAddr mem.disp insn.address insn.bytesLen =
        ((mem.disp + insn.address + insn.bytesLen) % ((U64MOD : Nat) : Int)).toNat ∧
      (is_mov_from_reg_to_mem next r = true ↔
        next.mnemonic = Mnemonic.MOV ∧
          ∃ m, next.operands = [X86OperandType.Mem m, X86OperandType.Reg r]) ∧
      stepA cands (vt, xr) insn (some next) =
        some (if effAddr mem.disp insn.address insn.bytesLen ∈ cands ∧
                is_mov_from_reg_to_mem next r = true then
            (binsert (effAddr mem.disp insn.address insn.bytesLen) vt,
              Xrefs.push xr (effAddr mem.disp insn.address insn.bytesLen) insn.address)
          else (vt, xr)) := by
  refine ⟨effAddr_eq mem.disp insn.address insn.bytesLen, is_mov_iff next r, ?_⟩
  simp only [stepA, h1, h2, h3, if_true]
  by_cases hc : effAddr mem.disp insn.address insn.bytesLen ∈ cands
  · by_cases hmv : is_mov_from_reg_to_mem next r = true
    · simp [hc, hmv]
    · simp [hc, hmv]
  · simp [hc]

theorem C6_idiomA_characterization_witness :
    leaInsn.mnemonic = Mnemonic.LEA ∧
      leaInsn.operands = [X86OperandType.Reg 1, X86OperandType.Mem leaMem] ∧
      leaMem.base = X86_REG_RIP ∧
      (effAddr leaMem.disp leaInsn.address leaInsn.bytesLen =
          ((leaMem.disp + leaInsn.address + leaInsn.bytesLen) % ((U64MOD : Nat) : Int)).toNat ∧
        (is_mov_from_reg_to_mem movStoreReg 1 = true ↔
          movStoreReg.mnemonic = Mnemonic.MOV ∧
            ∃ m, movStoreReg.operands = [X86OperandType.Mem m, X86OperandType.Reg 1]) ∧
        stepA [0x2000] ([], []) leaInsn (some movStoreReg) =
          some (if effAddr leaMem.disp leaInsn.address leaInsn.bytesLen ∈ [0x2000] ∧
                  is_mov_from_reg_to_mem movStoreReg 1 = true then
              (binsert (effAddr leaMem.disp leaInsn.address leaInsn.bytesLen) [],
                Xrefs.push [] (effAddr leaMem.disp leaInsn.address leaInsn.bytesLen)
                  leaInsn.address)
            else ([], []))) :=
  ⟨rfl, rfl, rfl,
    C6_idiomA_characterization [0x2000] [] [] leaInsn movStoreReg 1 leaMem rfl rfl rfl⟩

/-- C7: a decoded value exactly at the code section's base, or exactly one
past its end, fails the strict range test: the scan step never opens a run
on it, closes any open run, and inserts nothing new beyond that closure. -/
theorem C7_boundary_value_out_of_range (text : Section) (w rdataAddr i : Nat)
    (s : ScanState) (window : List Nat)
    (h : convert_pointer window w = text.address ∨
      convert_pointer window w = text.address + text.size) :
    scanStep text w rdataAddr s i window =
      ⟨none, match s.last with | none => s.all | some a => binsert a s.all⟩ := by
  have hne : ¬(text.address < convert_pointer window w ∧
      convert_pointer window w < text.address + text.size) := by
    rcases h with h | h <;> omega
  obtain ⟨last, all⟩ := s
  cases last <;> simp [scanStep, hne]

theorem C7_boundary_value_out_of_range_witness :
    (convert_pointer [0, 0x10, 0, 0] 4 = textS.address ∨
      convert_pointer [0, 0x10, 0, 0] 4 = textS.address + textS.size) ∧
      scanStep textS 4 0x2000 ⟨some 0x2000, []⟩ 8 [0, 0x10, 0, 0] =
        ⟨none, binsert 0x2000 []⟩ :=
  ⟨Or.inl (by decide),
    C7_boundary_value_out_of_range textS 4 0x2000 8 ⟨some 0x2000, []⟩ [0, 0x10, 0, 0]
      (Or.inl (by decide))⟩

/-- The scanner invariant at bound `o`: collected run starts lie below
`rdataAddr + o`, and an open run start lies below the bound and strictly
above every collected start. -/
def ScanInv (rdataAddr o : Nat) (s : ScanState) : Prop :=
  (∀ b ∈ s.all, b < rdataAddr + o) ∧
    (∀ a, s.last = some a → a < rdataAddr + o ∧ ∀ b ∈ s.all, b < a)

lemma scanStep_inv (text : Section) (w rdataAddr : Nat) (s : ScanState) (i o : Nat)
    (window : List Nat) (hinv : ScanInv rdataAddr o s) (hoi : o ≤ i) :
    ScanInv rdataAddr (i + 1) (scanStep text w rdataAddr s i window) := by
  obtain ⟨last, all⟩ := s
  obtain ⟨h1, h2⟩ := hinv
  cases last with
  | none =>
    unfold scanStep
    split
    · refine ⟨fun b hb => by have := h1 b hb; omega, ?_⟩
      intro a ha
      obtain rfl := Option.some.inj ha
      exact ⟨by omega, fun b hb => by have := h1 b hb; omega⟩
    · exact ⟨fun b hb => by have := h1 b hb; omega, fun a ha => Option.noConfusion ha⟩
  | some a0 =>
    unfold scanStep
    split
    · refine ⟨fun b hb => by have := h1 b hb; omega, ?_⟩
      intro a ha
      obtain rfl := Option.some.inj ha
      obtain ⟨hx, hy⟩ := h2 a0 rfl
      exact ⟨by omega, hy⟩
    · obtain ⟨hx, hy⟩ := h2 a0 rfl
      refine ⟨?_, fun a ha => Option.noConfusion ha⟩
      intro b hb
      rcases (mem_binsert b a0 all).1 hb with rfl | hb
      · omega
      · have := h1 b hb; omega

lemma scanFoldAux_inv (text : Section) (w rdataAddr : Nat) :
    ∀ (ws : List (Nat × List Nat)) (s : ScanState) (o : Nat),
      ScanInv rdataAddr o s →
      List.Pairwise (fun p q => p.1 < q.1) ws →
      (∀ p ∈ ws, o ≤ p.1) →
      ∃ o', ScanInv rdataAddr o'
        (ws.foldl (fun s iw => scanStep text w rdataAddr s iw.1 iw.2) s)
  | [], s, o, hinv, _, _ => ⟨o, hinv⟩
  | (i, win) :: rest, s, o, hinv, hpw, hge => by
    simp only [List.foldl_cons]
    have hstep := scanStep_inv text w rdataAddr s i o win hinv
      (hge (i, win) (List.mem_cons_self _ _))
    have hpw' := List.pairwise_cons.1 hpw
    exact scanFoldAux_inv text w rdataAddr rest _ (i + 1) hstep hpw'.2
      (fun p hp => hpw'.1 p hp)

/-- Window offsets are strictly increasing. -/
lemma scanWindows_pairwise (data : List Nat) (w : Nat) :
    List.Pairwise (fun p q => p.1 < q.1) (scanWindows data w) := by
  unfold scanWindows
  rw [List.pairwise_map]
  cases w with
  | zero =>
    have hz : numWindows data.length 0 = 0 := by
      unfold numWindows
      rw [if_neg (by omega)]
    rw [hz]
    exact List.Pairwise.nil
  | succ w' =>
    exact (List.pairwise_lt_range _).imp
      (fun h => (mul_lt_mul_right (Nat.succ_pos w')).mpr h)

/-- C8: a run still open when the data is exhausted contributes nothing:
its start address is not in the candidate set. -/
theorem C8_trailing_open_run_dropped (rdata text : Section) (w a : Nat)
    (h : (scanFold rdata w text).last = some a) :
    a ∉ scanCandidates rdata w text := by
  obtain ⟨o', hinv⟩ := scanFoldAux_inv text w rdata.address (scanWindows rdata.data w)
    ⟨none, []⟩ 0
    ⟨fun b hb => absurd hb (List.not_mem_nil b), fun a0 ha0 => Option.noConfusion ha0⟩
    (scanWindows_pairwise rdata.data w) (fun p _ => Nat.zero_le _)
  intro hmem
  unfold scanFold at h
  unfold scanCandidates scanFold at hmem
  have hlt := (hinv.2 a h).2 a hmem
  omega

theorem C8_trailing_open_run_dropped_witness :
    (scanFold rdataOpen 4 textS).last = some 0x2000 ∧
      0x2000 ∉ scanCandidates rdataOpen 4 textS :=
  ⟨by decide, C8_trailing_open_run_dropped rdataOpen textS 4 0x2000 (by decide)⟩

/-- C1: evaluation at the failing input.  `ctxPanic`'s stream ends with a
rip-relative LEA whose effective address `0x2000` is a candidate; with no
next instruction to peek at, `find_vtables` hits the `unwrap` panic instead
of treating it as a no-match and returning normally. -/
theorem C1_last_lea_panics :
    find_vtables ctxPanic = (Except.error FvError.panicked, []) := by decide

/-- C2 counterexample: `ctxBigImm`'s only instruction is a store to memory
of the immediate `0x100000000`, which lies outside the signed 32-bit range,
yet it confirms the vtable `0x100000000` and records a cross-reference —
the code never checks the immediate's range. -/
theorem C2_counterexample_big_imm :
    (2 : Int) ^ 31 ≤ 0x100000000 ∧
      ctxBigImm.insns = [movImmHigh] ∧
      movImmHigh.operands =
        [X86OperandType.Mem ⟨3, 0⟩, X86OperandType.Imm 0x100000000] ∧
      find_vtables ctxBigImm =
        (Except.ok [0x100000000], [(0x100000000, [0x5000])]) :=
  ⟨by norm_num, rfl, rfl, by decide⟩

/-- C2 (amended): idiom B triggers on any `MOV` whose destination is a
memory operand and whose source is an immediate — with no restriction on
the immediate's range — and confirms exactly when the immediate
reinterpreted as an unsigned 64-bit address is in the candidate set. -/
theorem C2_amended_idiomB_no_range_check (cands vt : List Nat) (xr : Xrefs)
    (insn : Instruction) (mem : X86OpMem) (imm : Int)
    (h1 : insn.mnemonic = Mnemonic.MOV)
    (h2 : insn.operands = [X86OperandType.Mem mem, X86OperandType.Imm imm]) :
    stepB cands (vt, xr) insn =
      if toU64 imm ∈ cands then
        (binsert (toU64 imm) vt, Xrefs.push xr (toU64 imm) insn.address)
      else (vt, xr) := by
  unfold stepB
  rw [if_pos h1, h2]

theorem C2_amended_idiomB_no_range_check_witness :
    movImmHigh.mnemonic = Mnemonic.MOV ∧
      movImmHigh.operands =
        [X86OperandType.Mem ⟨3, 0⟩, X86OperandType.Imm 0x100000000] ∧
      stepB [0x100000000] ([], []) movImmHigh =
        (if toU64 0x100000000 ∈ [0x100000000] then
          (binsert (toU64 0x100000000) [],
            Xrefs.push [] (toU64 0x100000000) movImmHigh.address)
        else ([], [])) :=
  ⟨rfl, rfl,
    C2_amended_idiomB_no_range_check [0x100000000] [] [] movImmHigh ⟨3, 0⟩
      0x100000000 rfl rfl⟩

end Od

